import Mathlib

/-!
Shallow embedding of the reorg-aware peer request cache of
chia/wallet/util/peer_request_cache.py: seven LRU caches owned by a
PeerRequestCache record, the accessor methods, the truncation operation
clear_after_height, and the usability predicate can_use_peer_request_cache.
Byte strings are modelled as lists of naturals, heights as naturals, and the
truncation cutoff as an integer, matching the Python signature.
-/

/-- Modelled from the spec: the collision-resistant hash primitive std_hash,
an opaque deterministic digest of a byte string.  Only determinism of the
digest is used by any property below, so it is modelled as the identity on
the serialised byte string. -/
def std_hash (b : List Nat) : List Nat := b

/-- Modelled from the spec: injective serialisation of an optional height,
used inside the coin state serialisation. -/
def encodeOptNat : Option Nat → List Nat
  | none => [0]
  | some h => [1, h + 1]

/-- Modelled from the spec: a coin state record with optional created and
spent heights and a derivable hash.  The coin field stands for the serialised
bytes of the underlying coin. -/
structure CoinState where
  coin : List Nat
  created_height : Option Nat
  spent_height : Option Nat
  deriving DecidableEq, Repr

/-- Modelled from the spec: CoinState.get_hash, the digest of the serialised
coin state record. -/
def CoinState.get_hash (cs : CoinState) : List Nat :=
  std_hash (cs.coin ++ encodeOptNat cs.spent_height ++ encodeOptNat cs.created_height)

/-- Modelled from the spec: the foliage transaction block record; only its
timestamp is read by this module. -/
structure FoliageTransactionBlock where
  timestamp : Nat
  deriving DecidableEq, Repr

/-- Modelled from the spec: a header block, reduced to the fields this module
reads.  The fields plot_public_key, foliage_block_data and
foliage_block_data_signature stand for the byte serialisations of the
corresponding nested objects; is_transaction_block models the transaction
block flag, which in the source is derived from the foliage and is
independent of the optional foliage_transaction_block record. -/
structure HeaderBlock where
  height : Nat
  is_transaction_block : Bool
  foliage_transaction_block : Option FoliageTransactionBlock
  plot_public_key : List Nat
  foliage_block_data : List Nat
  foliage_block_data_signature : List Nat
  deriving DecidableEq, Repr

/-- Modelled from the spec: the external BoundedCache collaborator
(chia.util.lru_cache.LRUCache), a fixed-capacity associative cache with
enumerable contents.  The cache field lists the entries from least to most
recently used, mirroring the backing ordered dictionary, whose keys are
pairwise distinct in any reachable state. -/
@[ext]
structure LRUCache (K V : Type) where
  capacity : Nat
  cache : List (K × V)
  deriving DecidableEq, Repr

namespace LRUCache

variable {K V : Type} [DecidableEq K]

/-- Empty cache of a given capacity. -/
def mk0 (cap : Nat) : LRUCache K V := { capacity := cap, cache := [] }

/-- Python LRUCache.get: on a miss return none and leave the cache alone; on
a hit move the entry to the most recent end and return its value.  The second
component is the cache after the recency update. -/
def get (c : LRUCache K V) (k : K) : Option V × LRUCache K V :=
  match c.cache.find? (fun p => p.1 == k) with
  | none => (none, c)
  | some p => (some p.2, { c with cache := c.cache.filter (fun q => !(q.1 == k)) ++ [p] })

/-- Lookup view of the cache contents: the value stored under a key, without
the recency side effect.  This is the observable key-to-value mapping of the
cache. -/
def getv (c : LRUCache K V) (k : K) : Option V :=
  (c.cache.find? (fun p => p.1 == k)).map Prod.snd

/-- Python LRUCache.put: bind the key to the value at the most recent end and
pop the least recently used entry if the capacity is now exceeded. -/
def put (c : LRUCache K V) (k : K) (v : V) : LRUCache K V :=
  let l := c.cache.filter (fun q => !(q.1 == k)) ++ [(k, v)]
  { c with cache := if c.capacity < l.length then l.drop 1 else l }

/-- Wellformedness of one cache: keys are pairwise distinct, as in the
backing ordered dictionary, and the size respects the capacity. -/
def WF (c : LRUCache K V) : Prop :=
  (c.cache.map Prod.fst).Nodup ∧ c.cache.length ≤ c.capacity

instance (c : LRUCache K V) : Decidable c.WF := by
  unfold WF; infer_instance

end LRUCache

/-- The seven domain caches of PeerRequestCache, as in the source class; the
leading underscores of the Python attribute names are dropped.  Request
handles and sub epoch summary responses are opaque to this module and are
modelled as natural number tokens. -/
@[ext]
structure PeerRequestCache where
  blocks : LRUCache Nat HeaderBlock
  block_requests : LRUCache (Nat × Nat) Nat
  ses_requests : LRUCache Nat Nat
  states_validated : LRUCache (List Nat) (Option Nat)
  timestamps : LRUCache Nat Nat
  blocks_validated : LRUCache (List Nat) Nat
  block_signatures_validated : LRUCache (List Nat) Nat
  deriving DecidableEq, Repr

namespace PeerRequestCache

/-- PeerRequestCache.__init__: seven empty caches with the fixed capacities
100, 100, 100, 1000, 1000, 1000, 1000. -/
def init : PeerRequestCache where
  blocks := LRUCache.mk0 100
  block_requests := LRUCache.mk0 100
  ses_requests := LRUCache.mk0 100
  states_validated := LRUCache.mk0 1000
  timestamps := LRUCache.mk0 1000
  blocks_validated := LRUCache.mk0 1000
  block_signatures_validated := LRUCache.mk0 1000

/-- PeerRequestCache.get_block. -/
def get_block (s : PeerRequestCache) (height : Nat) : Option HeaderBlock × PeerRequestCache :=
  let r := s.blocks.get height
  (r.1, { s with blocks := r.2 })

/-- PeerRequestCache.add_to_blocks: record the header block under its height;
for a transaction block, assert that the foliage transaction block is present
(the failed assertion is modelled as the result none) and record its
timestamp unless one is already recorded for that height. -/
def add_to_blocks (s : PeerRequestCache) (b : HeaderBlock) : Option PeerRequestCache :=
  let s1 := { s with blocks := s.blocks.put b.height b }
  if b.is_transaction_block then
    match b.foliage_transaction_block with
    | none => none
    | some ftb =>
      let r := s1.timestamps.get b.height
      let s2 := { s1 with timestamps := r.2 }
      match r.1 with
      | none => some { s2 with timestamps := s2.timestamps.put b.height ftb.timestamp }
      | some _ => some s2
  else
    some s1

/-- PeerRequestCache.get_block_request. -/
def get_block_request (s : PeerRequestCache) (start fin : Nat) : Option Nat × PeerRequestCache :=
  let r := s.block_requests.get (start, fin)
  (r.1, { s with block_requests := r.2 })

/-- PeerRequestCache.add_to_block_requests. -/
def add_to_block_requests (s : PeerRequestCache) (start fin : Nat) (request : Nat) : PeerRequestCache :=
  { s with block_requests := s.block_requests.put (start, fin) request }

/-- PeerRequestCache.get_ses_request. -/
def get_ses_request (s : PeerRequestCache) (height : Nat) : Option Nat × PeerRequestCache :=
  let r := s.ses_requests.get height
  (r.1, { s with ses_requests := r.2 })

/-- PeerRequestCache.add_to_ses_requests. -/
def add_to_ses_requests (s : PeerRequestCache) (height ses : Nat) : PeerRequestCache :=
  { s with ses_requests := s.ses_requests.put height ses }

/-- PeerRequestCache.in_states_validated, the Python test that get of the
coin state hash is not None.  The stored values are themselves optional
heights and Python collapses a nested optional, so a stored none is
indistinguishable from a miss here: the Boolean is the isSome of the join of
the lookup result. -/
def in_states_validated (s : PeerRequestCache) (h : List Nat) : Bool × PeerRequestCache :=
  let r := s.states_validated.get h
  (r.1.join.isSome, { s with states_validated := r.2 })

/-- PeerRequestCache.add_to_states_validated: store, under the coin state
hash, the spent height if present, else the created height if present, else
none. -/
def add_to_states_validated (s : PeerRequestCache) (cs : CoinState) : PeerRequestCache :=
  let cs_height : Option Nat :=
    match cs.spent_height with
    | some h => some h
    | none =>
      match cs.created_height with
      | some h => some h
      | none => none
  { s with states_validated := s.states_validated.put cs.get_hash cs_height }

/-- PeerRequestCache.get_height_timestamp. -/
def get_height_timestamp (s : PeerRequestCache) (height : Nat) : Option Nat × PeerRequestCache :=
  let r := s.timestamps.get height
  (r.1, { s with timestamps := r.2 })

/-- PeerRequestCache.add_to_blocks_validated. -/
def add_to_blocks_validated (s : PeerRequestCache) (reward_chain_hash : List Nat) (height : Nat) :
    PeerRequestCache :=
  { s with blocks_validated := s.blocks_validated.put reward_chain_hash height }

/-- PeerRequestCache.in_blocks_validated. -/
def in_blocks_validated (s : PeerRequestCache) (reward_chain_hash : List Nat) :
    Bool × PeerRequestCache :=
  let r := s.blocks_validated.get reward_chain_hash
  (r.1.isSome, { s with blocks_validated := r.2 })

/-- PeerRequestCache._calculate_sig_hash_from_block: digest of the
concatenation of the plot public key bytes, the foliage block data bytes and
the foliage block data signature bytes. -/
def calculate_sig_hash_from_block (b : HeaderBlock) : List Nat :=
  std_hash (b.plot_public_key ++ b.foliage_block_data ++ b.foliage_block_data_signature)

/-- PeerRequestCache.add_to_block_signatures_validated: store the block
height under the signature fingerprint. -/
def add_to_block_signatures_validated (s : PeerRequestCache) (b : HeaderBlock) : PeerRequestCache :=
  let sig_hash := calculate_sig_hash_from_block b
  { s with block_signatures_validated := s.block_signatures_validated.put sig_hash b.height }

/-- PeerRequestCache.in_block_signatures_validated. -/
def in_block_signatures_validated (s : PeerRequestCache) (b : HeaderBlock) :
    Bool × PeerRequestCache :=
  let sig_hash := calculate_sig_hash_from_block b
  let r := s.block_signatures_validated.get sig_hash
  (r.1.isSome, { s with block_signatures_validated := r.2 })

/-- PeerRequestCache.clear_after_height: rebuild every domain cache at its
old capacity, keeping only the entries whose associated heights are at most
the cutoff; a StatesValidated entry whose stored height is none is always
dropped. -/
def clear_after_height (s : PeerRequestCache) (height : Int) : PeerRequestCache :=
  let new_blocks := s.blocks.cache.foldl
    (fun acc p => if (p.1 : Int) ≤ height then acc.put p.1 p.2 else acc)
    (LRUCache.mk0 s.blocks.capacity)
  let new_block_requests := s.block_requests.cache.foldl
    (fun acc p => if (p.1.1 : Int) ≤ height ∧ (p.1.2 : Int) ≤ height then acc.put p.1 p.2 else acc)
    (LRUCache.mk0 s.block_requests.capacity)
  let new_ses_requests := s.ses_requests.cache.foldl
    (fun acc p => if (p.1 : Int) ≤ height then acc.put p.1 p.2 else acc)
    (LRUCache.mk0 s.ses_requests.capacity)
  let new_states_validated := s.states_validated.cache.foldl
    (fun acc p =>
      match p.2 with
      | some cs_height => if (cs_height : Int) ≤ height then acc.put p.1 (some cs_height) else acc
      | none => acc)
    (LRUCache.mk0 s.states_validated.capacity)
  let new_timestamps := s.timestamps.cache.foldl
    (fun acc p => if (p.1 : Int) ≤ height then acc.put p.1 p.2 else acc)
    (LRUCache.mk0 s.timestamps.capacity)
  let new_blocks_validated := s.blocks_validated.cache.foldl
    (fun acc p => if (p.2 : Int) ≤ height then acc.put p.1 p.2 else acc)
    (LRUCache.mk0 s.blocks_validated.capacity)
  let new_block_signatures_validated := s.block_signatures_validated.cache.foldl
    (fun acc p => if (p.2 : Int) ≤ height then acc.put p.1 p.2 else acc)
    (LRUCache.mk0 s.block_signatures_validated.capacity)
  { blocks := new_blocks
    block_requests := new_block_requests
    ses_requests := new_ses_requests
    states_validated := new_states_validated
    timestamps := new_timestamps
    blocks_validated := new_blocks_validated
    block_signatures_validated := new_block_signatures_validated }

/-- Wellformedness of the whole cache record: every domain cache is
wellformed. -/
def WF (s : PeerRequestCache) : Prop :=
  s.blocks.WF ∧ s.block_requests.WF ∧ s.ses_requests.WF ∧ s.states_validated.WF
    ∧ s.timestamps.WF ∧ s.blocks_validated.WF ∧ s.block_signatures_validated.WF

instance (s : PeerRequestCache) : Decidable s.WF := by
  unfold WF; infer_instance

end PeerRequestCache

/-- The free function can_use_peer_request_cache: decide whether a previously
recorded coin state validation can be trusted.  The coroutine awaits nothing;
its only state effect is the recency update performed by the StatesValidated
lookup inside in_states_validated, so it is modelled as returning the decision
together with the cache after that lookup. -/
def can_use_peer_request_cache (cs : CoinState) (s : PeerRequestCache) (fork_height : Option Nat) :
    Bool × PeerRequestCache :=
  let r := s.in_states_validated cs.get_hash
  let s1 := r.2
  if !r.1 then (false, s1)
  else
    match fork_height with
    | none => (true, s1)
    | some fh =>
      if cs.created_height = none ∧ cs.spent_height = none then (false, s1)
      else if cs.created_height.any (fun c => decide (fh < c)) then (false, s1)
      else if cs.spent_height.any (fun v => decide (fh < v)) then (false, s1)
      else (true, s1)

/-- Keep rule applied by clear_after_height to the caches keyed by a single
height (Blocks, SesRequests, Timestamps): the key is at most the cutoff. -/
def keepLe (height : Int) {V : Type} (p : Nat × V) : Bool :=
  decide ((p.1 : Int) ≤ height)

/-- Keep rule applied by clear_after_height to BlockRequests: both range
endpoints are at most the cutoff. -/
def keepPair (height : Int) {V : Type} (p : (Nat × Nat) × V) : Bool :=
  decide ((p.1.1 : Int) ≤ height ∧ (p.1.2 : Int) ≤ height)

/-- Keep rule applied by clear_after_height to StatesValidated: the stored
height is not none and is at most the cutoff. -/
def keepState (height : Int) (p : List Nat × Option Nat) : Bool :=
  match p.2 with
  | some hv => decide ((hv : Int) ≤ height)
  | none => false

/-- Keep rule applied by clear_after_height to BlocksValidated and
BlockSignaturesValidated: the stored height is at most the cutoff. -/
def keepVal (height : Int) {K : Type} (p : K × Nat) : Bool :=
  decide ((p.2 : Int) ≤ height)

/-- A cache all of whose entries satisfy a keep rule, with distinct keys and
within capacity; this is the state every cache rebuilt by clear_after_height
ends up in. -/
def LRUCache.GoodFor {K V : Type} (keep : K × V → Bool) (c : LRUCache K V) : Prop :=
  (c.cache.map Prod.fst).Nodup ∧ c.cache.length ≤ c.capacity ∧ ∀ p ∈ c.cache, keep p = true

/-- The exact contents claim of the truncation operation: every rebuilt cache
holds precisely the filtered entries of its predecessor, in order. -/
def clearFilterSpec (s : PeerRequestCache) (h : Int) : Prop :=
  (s.clear_after_height h).blocks.cache = s.blocks.cache.filter (keepLe h)
    ∧ (s.clear_after_height h).block_requests.cache = s.block_requests.cache.filter (keepPair h)
    ∧ (s.clear_after_height h).ses_requests.cache = s.ses_requests.cache.filter (keepLe h)
    ∧ (s.clear_after_height h).states_validated.cache = s.states_validated.cache.filter (keepState h)
    ∧ (s.clear_after_height h).timestamps.cache = s.timestamps.cache.filter (keepLe h)
    ∧ (s.clear_after_height h).blocks_validated.cache = s.blocks_validated.cache.filter (keepVal h)
    ∧ (s.clear_after_height h).block_signatures_validated.cache
        = s.block_signatures_validated.cache.filter (keepVal h)

/-- Every height recorded anywhere in the cache record exceeds the cutoff. -/
def allAboveCutoff (s : PeerRequestCache) (h : Int) : Prop :=
  (∀ p ∈ s.blocks.cache, h < (p.1 : Int))
    ∧ (∀ p ∈ s.block_requests.cache, h < (p.1.1 : Int) ∧ h < (p.1.2 : Int))
    ∧ (∀ p ∈ s.ses_requests.cache, h < (p.1 : Int))
    ∧ (∀ p ∈ s.states_validated.cache, ∀ hv, p.2 = some hv → h < (hv : Int))
    ∧ (∀ p ∈ s.timestamps.cache, h < (p.1 : Int))
    ∧ (∀ p ∈ s.blocks_validated.cache, h < (p.2 : Int))
    ∧ (∀ p ∈ s.block_signatures_validated.cache, h < (p.2 : Int))

/-- Every height recorded anywhere in the cache record is at most the
cutoff. -/
def allBelowCutoff (s : PeerRequestCache) (h : Int) : Prop :=
  (∀ p ∈ s.blocks.cache, (p.1 : Int) ≤ h)
    ∧ (∀ p ∈ s.block_requests.cache, (p.1.1 : Int) ≤ h ∧ (p.1.2 : Int) ≤ h)
    ∧ (∀ p ∈ s.ses_requests.cache, (p.1 : Int) ≤ h)
    ∧ (∀ p ∈ s.states_validated.cache, ∀ hv, p.2 = some hv → (hv : Int) ≤ h)
    ∧ (∀ p ∈ s.timestamps.cache, (p.1 : Int) ≤ h)
    ∧ (∀ p ∈ s.blocks_validated.cache, (p.2 : Int) ≤ h)
    ∧ (∀ p ∈ s.block_signatures_validated.cache, (p.2 : Int) ≤ h)

/-- All seven domain caches are empty. -/
def allCleared (s : PeerRequestCache) : Prop :=
  s.blocks.cache = [] ∧ s.block_requests.cache = [] ∧ s.ses_requests.cache = []
    ∧ s.states_validated.cache = [] ∧ s.timestamps.cache = [] ∧ s.blocks_validated.cache = []
    ∧ s.block_signatures_validated.cache = []

/-- Truncation keeps six caches whole and drops exactly the StatesValidated
entries whose stored height is none. -/
def preservesExceptNoneStates (s : PeerRequestCache) (h : Int) : Prop :=
  (s.clear_after_height h).blocks.cache = s.blocks.cache
    ∧ (s.clear_after_height h).block_requests.cache = s.block_requests.cache
    ∧ (s.clear_after_height h).ses_requests.cache = s.ses_requests.cache
    ∧ (s.clear_after_height h).states_validated.cache
        = s.states_validated.cache.filter (fun p => p.2.isSome)
    ∧ (s.clear_after_height h).timestamps.cache = s.timestamps.cache
    ∧ (s.clear_after_height h).blocks_validated.cache = s.blocks_validated.cache
    ∧ (s.clear_after_height h).block_signatures_validated.cache
        = s.block_signatures_validated.cache

/-- Decision table following the amended C1 wording: the prior validation is
usable when the StatesValidated lookup yields a stored height and, when a
fork height is present, at least one event height exists and every present
event height is at most the fork height. -/
def claimC1Spec (cs : CoinState) (s : PeerRequestCache) (fork_height : Option Nat) : Bool :=
  match (s.states_validated.getv cs.get_hash).join, fork_height with
  | none, _ => false
  | some _, none => true
  | some _, some fh =>
    match cs.created_height, cs.spent_height with
    | none, none => false
    | some c, none => decide (c ≤ fh)
    | none, some v => decide (v ≤ fh)
    | some c, some v => decide (c ≤ fh) && decide (v ≤ fh)

/-- One call of the public PeerRequestCache interface, used to state
invariants over arbitrary operation sequences.  A failed add_to_blocks
assertion aborts the call and is modelled as leaving the record unchanged. -/
inductive Op where
  | getBlock (height : Nat)
  | addToBlocks (b : HeaderBlock)
  | getBlockRequest (start fin : Nat)
  | addToBlockRequests (start fin : Nat) (request : Nat)
  | getSesRequest (height : Nat)
  | addToSesRequests (height ses : Nat)
  | inStatesValidated (h : List Nat)
  | addToStatesValidated (cs : CoinState)
  | getHeightTimestamp (height : Nat)
  | addToBlocksValidated (rch : List Nat) (height : Nat)
  | inBlocksValidated (rch : List Nat)
  | addToBlockSignaturesValidated (b : HeaderBlock)
  | inBlockSignaturesValidated (b : HeaderBlock)
  | canUse (cs : CoinState) (fork : Option Nat)
  | clearAfterHeight (height : Int)

/-- State transition of one interface call. -/
def stepOp (s : PeerRequestCache) : Op → PeerRequestCache
  | .getBlock h => (s.get_block h).2
  | .addToBlocks b => (s.add_to_blocks b).getD s
  | .getBlockRequest a b => (s.get_block_request a b).2
  | .addToBlockRequests a b r => s.add_to_block_requests a b r
  | .getSesRequest h => (s.get_ses_request h).2
  | .addToSesRequests h v => s.add_to_ses_requests h v
  | .inStatesValidated h => (s.in_states_validated h).2
  | .addToStatesValidated cs => s.add_to_states_validated cs
  | .getHeightTimestamp h => (s.get_height_timestamp h).2
  | .addToBlocksValidated rch h => s.add_to_blocks_validated rch h
  | .inBlocksValidated rch => (s.in_blocks_validated rch).2
  | .addToBlockSignaturesValidated b => s.add_to_block_signatures_validated b
  | .inBlockSignaturesValidated b => (s.in_block_signatures_validated b).2
  | .canUse cs f => (can_use_peer_request_cache cs s f).2
  | .clearAfterHeight h => s.clear_after_height h

/-- The seven capacities of the domain caches, in declaration order. -/
def capacities (s : PeerRequestCache) : Nat × Nat × Nat × Nat × Nat × Nat × Nat :=
  (s.blocks.capacity, s.block_requests.capacity, s.ses_requests.capacity,
    s.states_validated.capacity, s.timestamps.capacity, s.blocks_validated.capacity,
    s.block_signatures_validated.capacity)

/-- Coin state with neither a created nor a spent height. -/
def cs00 : CoinState := { coin := [], created_height := none, spent_height := none }

/-- The initial cache after validating the unconfirmed coin state cs00. -/
def prc00 : PeerRequestCache := PeerRequestCache.init.add_to_states_validated cs00

/-- Cache record whose StatesValidated holds one entry with stored height
none and whose Timestamps holds one entry at height 5. -/
def sC3 : PeerRequestCache :=
  { PeerRequestCache.init with
      states_validated := { capacity := 1000, cache := [([7], (none : Option Nat))] },
      timestamps := { capacity := 1000, cache := [(5, 55)] } }

/-- Populated wellformed cache record used to instantiate the truncation
theorem. -/
def sW3 : PeerRequestCache where
  blocks := { capacity := 100, cache := [] }
  block_requests := { capacity := 100, cache := [((3, 8), 30), ((5, 15), 40)] }
  ses_requests := { capacity := 100, cache := [(2, 9), (12, 11)] }
  states_validated := { capacity := 1000, cache := [([1], some 3), ([2], none), ([3], some 9)] }
  timestamps := { capacity := 1000, cache := [(1, 10), (6, 60)] }
  blocks_validated := { capacity := 1000, cache := [([4], 2), ([5], 8)] }
  block_signatures_validated := { capacity := 1000, cache := [([6], 4)] }

/-- Transaction block at height 7 carrying timestamp 100. -/
def bT1 : HeaderBlock where
  height := 7
  is_transaction_block := true
  foliage_transaction_block := some { timestamp := 100 }
  plot_public_key := [1]
  foliage_block_data := [2]
  foliage_block_data_signature := [3]

/-- Transaction block at height 7 carrying timestamp 200. -/
def bT2 : HeaderBlock := { bT1 with foliage_transaction_block := some { timestamp := 200 } }

/-- Non transaction block at height 9. -/
def bN : HeaderBlock where
  height := 9
  is_transaction_block := false
  foliage_transaction_block := none
  plot_public_key := [4]
  foliage_block_data := [5]
  foliage_block_data_signature := [6]

/-- Malformed block: flagged as a transaction block but missing its foliage
transaction block record. -/
def bBad : HeaderBlock := { bT1 with foliage_transaction_block := none }

/-- Block sharing the three signature source fields of bT1 but recorded at a
different height. -/
def bSig2 : HeaderBlock := { bT1 with height := 42 }

/-- Coin state with both a created and a spent height. -/
def csW4 : CoinState := { coin := [3], created_height := some 2, spent_height := some 6 }

namespace LRUCache

variable {K V : Type} [DecidableEq K]

/-- A filter keeping every element that a search predicate accepts does not
change the result of the search. -/
theorem find_filter_imp {α : Type} (p q : α → Bool) (hpq : ∀ a, p a = true → q a = true) :
    ∀ l : List α, (l.filter q).find? p = l.find? p := by
  intro l
  induction l with
  | nil => rfl
  | cons x xs ih =>
    by_cases hq : q x = true
    · rw [List.filter_cons_of_pos hq]
      by_cases hp : p x = true
      · rw [List.find?_cons_of_pos _ hp, List.find?_cons_of_pos _ hp]
      · rw [List.find?_cons_of_neg _ hp, List.find?_cons_of_neg _ hp, ih]
    · have hp : ¬ p x = true := fun hpx => hq (hpq x hpx)
      rw [List.filter_cons_of_neg hq, List.find?_cons_of_neg _ hp, ih]

/-- Searching a key after appending an entry for it to a list free of that
key finds the appended entry. -/
theorem find_append_self (k : K) (v : V) :
    ∀ l : List (K × V), (∀ p ∈ l, (p.1 == k) = false) →
      (l ++ [(k, v)]).find? (fun p => p.1 == k) = some (k, v) := by
  intro l hl
  rw [List.find?_append]
  have h1 : l.find? (fun p => p.1 == k) = none :=
    List.find?_eq_none.mpr (by intro x hx; simp [hl x hx])
  rw [h1]
  simp [List.find?]

/-- The value returned by the stateful lookup is the pure lookup. -/
theorem get_fst (c : LRUCache K V) (k : K) : (c.get k).1 = c.getv k := by
  unfold get getv
  cases hf : c.cache.find? (fun p => p.1 == k) <;> simp [hf]

/-- A miss leaves the cache untouched. -/
theorem get_miss (c : LRUCache K V) (k : K) (h : c.getv k = none) : c.get k = (none, c) := by
  unfold getv at h
  unfold get
  cases hf : c.cache.find? (fun p => p.1 == k) with
  | none => rfl
  | some p => rw [hf] at h; simp at h

/-- The recency update of a lookup does not change the key-to-value mapping
of the cache. -/
theorem getv_get_snd (c : LRUCache K V) (k k2 : K) : ((c.get k).2).getv k2 = c.getv k2 := by
  unfold get
  cases hf : c.cache.find? (fun p => p.1 == k) with
  | none => rfl
  | some p =>
    have hpk : p.1 = k := by simpa using List.find?_some hf
    unfold getv
    rw [List.find?_append]
    by_cases hkk : k2 = k
    · subst hkk
      have h1 : (c.cache.filter (fun q => !(q.1 == k2))).find? (fun q => q.1 == k2) = none := by
        refine List.find?_eq_none.mpr ?_
        intro x hx
        have := (List.mem_filter.mp hx).2
        simpa using this
      rw [h1, hf]
      simp [List.find?, hpk]
    · have h2 : ([p].find? fun q => q.1 == k2) = none := by
        have hne : (p.1 == k2) = false := by
          simp only [beq_eq_false_iff_ne, hpk]
          exact fun h => hkk h.symm
        simp [List.find?, hne]
      have h3 : (c.cache.filter (fun q => !(q.1 == k))).find? (fun q => q.1 == k2)
          = c.cache.find? (fun q => q.1 == k2) := by
        refine find_filter_imp _ _ ?_ c.cache
        intro a ha
        have : a.1 = k2 := by simpa using ha
        simp [this, hkk]
      rw [h2, h3]
      simp

/-- Insertion never changes the capacity. -/
theorem put_capacity (c : LRUCache K V) (k : K) (v : V) : (c.put k v).capacity = c.capacity := rfl

/-- Lookup never changes the capacity. -/
theorem get_snd_capacity (c : LRUCache K V) (k : K) : ((c.get k).2).capacity = c.capacity := by
  unfold get
  cases hf : c.cache.find? (fun p => p.1 == k) <;> simp [hf]

/-- Inserting a fresh key into a cache with spare room appends the entry. -/
theorem put_fresh (c : LRUCache K V) (k : K) (v : V)
    (hfresh : ∀ p ∈ c.cache, ¬ p.1 = k) (hlen : c.cache.length + 1 ≤ c.capacity) :
    c.put k v = { c with cache := c.cache ++ [(k, v)] } := by
  have hfil : c.cache.filter (fun q => !(q.1 == k)) = c.cache :=
    List.filter_eq_self.mpr (by intro p hp; simpa using hfresh p hp)
  have hnc : ¬ c.capacity < (c.cache ++ [(k, v)]).length := by
    simp only [List.length_append, List.length_cons, List.length_nil]
    omega
  simp only [put, hfil]
  rw [if_neg hnc]

/-- Looking up the key just inserted returns the inserted value, provided the
capacity is positive. -/
theorem getv_put_self (c : LRUCache K V) (k : K) (v : V) (hcap : 0 < c.capacity) :
    (c.put k v).getv k = some v := by
  have hall : ∀ p ∈ c.cache.filter (fun q => !(q.1 == k)), (p.1 == k) = false := by
    intro p hp
    have := (List.mem_filter.mp hp).2
    simpa using this
  simp only [put, getv]
  by_cases hlen : c.capacity < (c.cache.filter (fun q => !(q.1 == k)) ++ [(k, v)]).length
  · rw [if_pos hlen]
    cases hfl : c.cache.filter (fun q => !(q.1 == k)) with
    | nil =>
      rw [hfl] at hlen
      simp at hlen
      omega
    | cons x xs =>
      have hall2 : ∀ p ∈ xs, (p.1 == k) = false := fun p hp =>
        hall p (by rw [hfl]; exact List.mem_cons_of_mem x hp)
      simp only [List.cons_append, List.drop_one, List.tail_cons]
      rw [find_append_self k v xs hall2]
      rfl
  · rw [if_neg hlen, find_append_self k v _ hall]
    rfl

end LRUCache

namespace LRUCache

variable {K V : Type} [DecidableEq K]

/-- A conditional rebuild loop is the unconditional rebuild of the filtered
entry list. -/
theorem foldl_step_filter (keep : K × V → Bool) (step : LRUCache K V → K × V → LRUCache K V)
    (hstep : ∀ acc p, step acc p = if keep p then acc.put p.1 p.2 else acc) :
    ∀ (l : List (K × V)) (c : LRUCache K V),
      l.foldl step c = (l.filter keep).foldl (fun acc p => acc.put p.1 p.2) c := by
  intro l
  induction l with
  | nil => intro c; rfl
  | cons x xs ih =>
    intro c
    rw [List.foldl_cons, hstep]
    by_cases hx : keep x = true
    · rw [List.filter_cons_of_pos hx, if_pos hx, List.foldl_cons, ih]
    · rw [List.filter_cons_of_neg hx, if_neg hx, ih]

/-- Any loop whose step keeps the capacity keeps the capacity. -/
theorem foldl_capacity (step : LRUCache K V → K × V → LRUCache K V)
    (hstep : ∀ acc p, (step acc p).capacity = acc.capacity) :
    ∀ (l : List (K × V)) (c : LRUCache K V), (l.foldl step c).capacity = c.capacity := by
  intro l
  induction l with
  | nil => intro c; rfl
  | cons x xs ih => intro c; rw [List.foldl_cons, ih, hstep]

/-- Rebuilding from a list of distinct keys that fits in the capacity plays
back the list exactly. -/
theorem foldl_put_eq (cap : Nat) :
    ∀ (l a : List (K × V)), ((a ++ l).map Prod.fst).Nodup → a.length + l.length ≤ cap →
      ((l.foldl (fun acc p => acc.put p.1 p.2) { capacity := cap, cache := a } : LRUCache K V)).cache
        = a ++ l := by
  intro l
  induction l with
  | nil => intro a _ _; simp
  | cons x xs ih =>
    intro a hnd hlen
    obtain ⟨k, v⟩ := x
    have hk : k ∉ a.map Prod.fst := by
      intro hmem
      rw [List.map_append] at hnd
      rcases List.nodup_append.mp hnd with ⟨h1, h2, hdis⟩
      exact hdis hmem (by simp)
    have hfresh : ∀ p ∈ a, ¬ p.1 = k := by
      intro p hp hpk
      exact hk (List.mem_map.mpr ⟨p, hp, hpk⟩)
    have hput : (LRUCache.put { capacity := cap, cache := a } k v)
        = { capacity := cap, cache := a ++ [(k, v)] } := by
      have := put_fresh { capacity := cap, cache := a } k v hfresh (by simp at hlen ⊢; omega)
      simpa using this
    rw [List.foldl_cons, hput]
    have hnd2 : (((a ++ [(k, v)]) ++ xs).map Prod.fst).Nodup := by
      rw [List.append_assoc]
      simpa using hnd
    have hlen2 : (a ++ [(k, v)]).length + xs.length ≤ cap := by
      simp at hlen ⊢
      omega
    have := ih (a ++ [(k, v)]) hnd2 hlen2
    rw [this, List.append_assoc]
    simp

/-- Every cache built by a conditional rebuild loop has distinct keys, fits
in its capacity and keeps only accepted entries. -/
theorem goodFor_put (keep : K × V → Bool) (c : LRUCache K V) (k : K) (v : V)
    (hc : GoodFor keep c) (hkv : keep (k, v) = true) : GoodFor keep (c.put k v) := by
  obtain ⟨hnd, hlen, hkeep⟩ := hc
  have hndfl : ((c.cache.filter (fun q => !(q.1 == k)) ++ [(k, v)]).map Prod.fst).Nodup := by
    rw [List.map_append]
    refine List.nodup_append.mpr ⟨((List.filter_sublist _).map Prod.fst).nodup hnd, by simp, ?_⟩
    intro y hy hy2
    simp only [List.map_cons, List.map_nil, List.mem_singleton] at hy2
    subst hy2
    obtain ⟨p, hp, hpk⟩ := List.mem_map.mp hy
    have := (List.mem_filter.mp hp).2
    rw [hpk] at this
    simp at this
  have hmemfl : ∀ p ∈ c.cache.filter (fun q => !(q.1 == k)) ++ [(k, v)], keep p = true := by
    intro p hp
    rcases List.mem_append.mp hp with hp1 | hp1
    · exact hkeep p (List.mem_of_mem_filter hp1)
    · simp only [List.mem_singleton] at hp1
      subst hp1
      exact hkv
  have hlenfl : (c.cache.filter (fun q => !(q.1 == k))).length ≤ c.cache.length :=
    List.length_filter_le _ _
  constructor
  · show ((LRUCache.put c k v).cache.map Prod.fst).Nodup
    simp only [put]
    by_cases hov : c.capacity < (c.cache.filter (fun q => !(q.1 == k)) ++ [(k, v)]).length
    · rw [if_pos hov]
      exact ((List.drop_sublist 1 _).map Prod.fst).nodup hndfl
    · rw [if_neg hov]
      exact hndfl
  refine ⟨?_, ?_⟩
  · show (LRUCache.put c k v).cache.length ≤ (LRUCache.put c k v).capacity
    simp only [put]
    by_cases hov : c.capacity < (c.cache.filter (fun q => !(q.1 == k)) ++ [(k, v)]).length
    · rw [if_pos hov]
      simp only [List.length_drop, List.length_append, List.length_cons, List.length_nil]
      omega
    · rw [if_neg hov]
      omega
  · show ∀ p ∈ (LRUCache.put c k v).cache, keep p = true
    simp only [put]
    by_cases hov : c.capacity < (c.cache.filter (fun q => !(q.1 == k)) ++ [(k, v)]).length
    · rw [if_pos hov]
      intro p hp
      exact hmemfl p ((List.drop_sublist 1 _).mem hp)
    · rw [if_neg hov]
      exact hmemfl

end LRUCache

namespace LRUCache

variable {K V : Type} [DecidableEq K]

/-- The conditional rebuild loop preserves the GoodFor invariant. -/
theorem goodFor_foldl (keep : K × V → Bool) (step : LRUCache K V → K × V → LRUCache K V)
    (hstep : ∀ acc p, step acc p = if keep p then acc.put p.1 p.2 else acc) :
    ∀ (l : List (K × V)) (c : LRUCache K V), GoodFor keep c → GoodFor keep (l.foldl step c) := by
  intro l
  induction l with
  | nil => intro c hc; exact hc
  | cons x xs ih =>
    intro c hc
    rw [List.foldl_cons, hstep]
    by_cases hx : keep x = true
    · rw [if_pos hx]
      exact ih _ (goodFor_put keep c x.1 x.2 hc hx)
    · rw [if_neg hx]
      exact ih _ hc

/-- Rebuilding a cache that already satisfies its keep rule reproduces the
cache exactly. -/
theorem foldl_refill_self (keep : K × V → Bool) (step : LRUCache K V → K × V → LRUCache K V)
    (hstep : ∀ acc p, step acc p = if keep p then acc.put p.1 p.2 else acc)
    (c : LRUCache K V) (hc : GoodFor keep c) :
    c.cache.foldl step (mk0 c.capacity) = c := by
  obtain ⟨hnd, hlen, hkeep⟩ := hc
  rw [foldl_step_filter keep step hstep, List.filter_eq_self.mpr hkeep]
  apply LRUCache.ext
  · exact foldl_capacity (fun acc p => LRUCache.put acc p.1 p.2) (fun acc p => rfl)
      c.cache (mk0 c.capacity)
  · have h1 : (([] ++ c.cache).map Prod.fst).Nodup := by simpa using hnd
    have h2 : ([] : List (K × V)).length + c.cache.length ≤ c.capacity := by simpa using hlen
    have := foldl_put_eq c.capacity c.cache [] h1 h2
    simpa [mk0] using this

/-- Rebuilding a wellformed cache keeps exactly the filtered entries, in
order, at the same capacity. -/
theorem foldl_build_filter (keep : K × V → Bool) (step : LRUCache K V → K × V → LRUCache K V)
    (hstep : ∀ acc p, step acc p = if keep p then acc.put p.1 p.2 else acc)
    (c : LRUCache K V) (hwf : c.WF) :
    c.cache.foldl step (mk0 c.capacity)
      = { capacity := c.capacity, cache := c.cache.filter keep } := by
  obtain ⟨hnd, hlen⟩ := hwf
  rw [foldl_step_filter keep step hstep]
  apply LRUCache.ext
  · exact foldl_capacity (fun acc p => LRUCache.put acc p.1 p.2) (fun acc p => rfl)
      (c.cache.filter keep) (mk0 c.capacity)
  · have h1 : (([] ++ c.cache.filter keep).map Prod.fst).Nodup := by
      simpa using ((List.filter_sublist _).map Prod.fst).nodup hnd
    have h2 : ([] : List (K × V)).length + (c.cache.filter keep).length ≤ c.capacity := by
      simpa using le_trans (List.length_filter_le _ _) hlen
    have := foldl_put_eq c.capacity (c.cache.filter keep) [] h1 h2
    simpa [mk0] using this

end LRUCache

namespace PeerRequestCache

/-- Blocks component of the truncation, as the rebuild loop of the source. -/
theorem clear_blocks_def (s : PeerRequestCache) (h : Int) :
    (s.clear_after_height h).blocks
      = s.blocks.cache.foldl
          (fun acc p => if (p.1 : Int) ≤ h then acc.put p.1 p.2 else acc)
          (LRUCache.mk0 s.blocks.capacity) := rfl

/-- BlockRequests component of the truncation. -/
theorem clear_block_requests_def (s : PeerRequestCache) (h : Int) :
    (s.clear_after_height h).block_requests
      = s.block_requests.cache.foldl
          (fun acc p => if (p.1.1 : Int) ≤ h ∧ (p.1.2 : Int) ≤ h then acc.put p.1 p.2 else acc)
          (LRUCache.mk0 s.block_requests.capacity) := rfl

/-- SesRequests component of the truncation. -/
theorem clear_ses_requests_def (s : PeerRequestCache) (h : Int) :
    (s.clear_after_height h).ses_requests
      = s.ses_requests.cache.foldl
          (fun acc p => if (p.1 : Int) ≤ h then acc.put p.1 p.2 else acc)
          (LRUCache.mk0 s.ses_requests.capacity) := rfl

/-- StatesValidated component of the truncation. -/
theorem clear_states_validated_def (s : PeerRequestCache) (h : Int) :
    (s.clear_after_height h).states_validated
      = s.states_validated.cache.foldl
          (fun acc p =>
            match p.2 with
            | some cs_height =>
              if (cs_height : Int) ≤ h then acc.put p.1 (some cs_height) else acc
            | none => acc)
          (LRUCache.mk0 s.states_validated.capacity) := rfl

/-- Timestamps component of the truncation. -/
theorem clear_timestamps_def (s : PeerRequestCache) (h : Int) :
    (s.clear_after_height h).timestamps
      = s.timestamps.cache.foldl
          (fun acc p => if (p.1 : Int) ≤ h then acc.put p.1 p.2 else acc)
          (LRUCache.mk0 s.timestamps.capacity) := rfl

/-- BlocksValidated component of the truncation. -/
theorem clear_blocks_validated_def (s : PeerRequestCache) (h : Int) :
    (s.clear_after_height h).blocks_validated
      = s.blocks_validated.cache.foldl
          (fun acc p => if (p.2 : Int) ≤ h then acc.put p.1 p.2 else acc)
          (LRUCache.mk0 s.blocks_validated.capacity) := rfl

/-- BlockSignaturesValidated component of the truncation. -/
theorem clear_block_signatures_validated_def (s : PeerRequestCache) (h : Int) :
    (s.clear_after_height h).block_signatures_validated
      = s.block_signatures_validated.cache.foldl
          (fun acc p => if (p.2 : Int) ≤ h then acc.put p.1 p.2 else acc)
          (LRUCache.mk0 s.block_signatures_validated.capacity) := rfl

end PeerRequestCache

/-- The single-height rebuild step is the keepLe-guarded insertion. -/
theorem hstepLe {V : Type} (h : Int) :
    ∀ (acc : LRUCache Nat V) (p : Nat × V),
      (if (p.1 : Int) ≤ h then acc.put p.1 p.2 else acc)
        = if keepLe h p then acc.put p.1 p.2 else acc := by
  intro acc p
  by_cases hp : (p.1 : Int) ≤ h <;> simp [keepLe, hp]

/-- The range rebuild step is the keepPair-guarded insertion. -/
theorem hstepPair {V : Type} (h : Int) :
    ∀ (acc : LRUCache (Nat × Nat) V) (p : (Nat × Nat) × V),
      (if (p.1.1 : Int) ≤ h ∧ (p.1.2 : Int) ≤ h then acc.put p.1 p.2 else acc)
        = if keepPair h p then acc.put p.1 p.2 else acc := by
  intro acc p
  by_cases hp : (p.1.1 : Int) ≤ h ∧ (p.1.2 : Int) ≤ h <;> simp [keepPair, hp]

/-- The StatesValidated rebuild step is the keepState-guarded insertion. -/
theorem hstepState (h : Int) :
    ∀ (acc : LRUCache (List Nat) (Option Nat)) (p : List Nat × Option Nat),
      (match p.2 with
        | some cs_height => if (cs_height : Int) ≤ h then acc.put p.1 (some cs_height) else acc
        | none => acc)
        = if keepState h p then acc.put p.1 p.2 else acc := by
  intro acc p
  obtain ⟨k, v⟩ := p
  cases v with
  | none => simp [keepState]
  | some hv => by_cases hp : (hv : Int) ≤ h <;> simp [keepState, hp]

/-- The stored-height rebuild step is the keepVal-guarded insertion. -/
theorem hstepVal {K : Type} [DecidableEq K] (h : Int) :
    ∀ (acc : LRUCache K Nat) (p : K × Nat),
      (if (p.2 : Int) ≤ h then acc.put p.1 p.2 else acc)
        = if keepVal h p then acc.put p.1 p.2 else acc := by
  intro acc p
  by_cases hp : (p.2 : Int) ≤ h <;> simp [keepVal, hp]

/-- The empty cache satisfies any keep rule. -/
theorem goodFor_mk0 {K V : Type} (keep : K × V → Bool) (cap : Nat) :
    LRUCache.GoodFor keep (LRUCache.mk0 cap) :=
  ⟨by simp [LRUCache.mk0], by simp [LRUCache.mk0], by simp [LRUCache.mk0]⟩

namespace PeerRequestCache

/-- Every rebuilt Blocks cache satisfies its keep rule. -/
theorem clear_blocks_good (s : PeerRequestCache) (h : Int) :
    LRUCache.GoodFor (keepLe h) (s.clear_after_height h).blocks := by
  rw [clear_blocks_def]
  exact LRUCache.goodFor_foldl _ _ (hstepLe h) _ _ (goodFor_mk0 _ _)

/-- Every rebuilt BlockRequests cache satisfies its keep rule. -/
theorem clear_block_requests_good (s : PeerRequestCache) (h : Int) :
    LRUCache.GoodFor (keepPair h) (s.clear_after_height h).block_requests := by
  rw [clear_block_requests_def]
  exact LRUCache.goodFor_foldl _ _ (hstepPair h) _ _ (goodFor_mk0 _ _)

/-- Every rebuilt SesRequests cache satisfies its keep rule. -/
theorem clear_ses_requests_good (s : PeerRequestCache) (h : Int) :
    LRUCache.GoodFor (keepLe h) (s.clear_after_height h).ses_requests := by
  rw [clear_ses_requests_def]
  exact LRUCache.goodFor_foldl _ _ (hstepLe h) _ _ (goodFor_mk0 _ _)

/-- Every rebuilt StatesValidated cache satisfies its keep rule. -/
theorem clear_states_validated_good (s : PeerRequestCache) (h : Int) :
    LRUCache.GoodFor (keepState h) (s.clear_after_height h).states_validated := by
  rw [clear_states_validated_def]
  exact LRUCache.goodFor_foldl _ _ (hstepState h) _ _ (goodFor_mk0 _ _)

/-- Every rebuilt Timestamps cache satisfies its keep rule. -/
theorem clear_timestamps_good (s : PeerRequestCache) (h : Int) :
    LRUCache.GoodFor (keepLe h) (s.clear_after_height h).timestamps := by
  rw [clear_timestamps_def]
  exact LRUCache.goodFor_foldl _ _ (hstepLe h) _ _ (goodFor_mk0 _ _)

/-- Every rebuilt BlocksValidated cache satisfies its keep rule. -/
theorem clear_blocks_validated_good (s : PeerRequestCache) (h : Int) :
    LRUCache.GoodFor (keepVal h) (s.clear_after_height h).blocks_validated := by
  rw [clear_blocks_validated_def]
  exact LRUCache.goodFor_foldl _ _ (hstepVal h) _ _ (goodFor_mk0 _ _)

/-- Every rebuilt BlockSignaturesValidated cache satisfies its keep rule. -/
theorem clear_block_signatures_validated_good (s : PeerRequestCache) (h : Int) :
    LRUCache.GoodFor (keepVal h) (s.clear_after_height h).block_signatures_validated := by
  rw [clear_block_signatures_validated_def]
  exact LRUCache.goodFor_foldl _ _ (hstepVal h) _ _ (goodFor_mk0 _ _)

/-- On a wellformed cache record the truncation keeps exactly the filtered
entries of every domain cache. -/
theorem clear_filter_spec_of_wf (s : PeerRequestCache) (h : Int) (hwf : s.WF) :
    clearFilterSpec s h := by
  obtain ⟨h1, h2, h3, h4, h5, h6, h7⟩ := hwf
  refine ⟨?_, ?_, ?_, ?_, ?_, ?_, ?_⟩
  · rw [clear_blocks_def s h, LRUCache.foldl_build_filter (keepLe h) _ (hstepLe h) s.blocks h1]
  · rw [clear_block_requests_def s h,
      LRUCache.foldl_build_filter (keepPair h) _ (hstepPair h) s.block_requests h2]
  · rw [clear_ses_requests_def s h,
      LRUCache.foldl_build_filter (keepLe h) _ (hstepLe h) s.ses_requests h3]
  · rw [clear_states_validated_def s h,
      LRUCache.foldl_build_filter (keepState h) _ (hstepState h) s.states_validated h4]
  · rw [clear_timestamps_def s h,
      LRUCache.foldl_build_filter (keepLe h) _ (hstepLe h) s.timestamps h5]
  · rw [clear_blocks_validated_def s h,
      LRUCache.foldl_build_filter (keepVal h) _ (hstepVal h) s.blocks_validated h6]
  · rw [clear_block_signatures_validated_def s h,
      LRUCache.foldl_build_filter (keepVal h) _ (hstepVal h) s.block_signatures_validated h7]

end PeerRequestCache

/-- The only state effect of the usability predicate is the recency update of
the StatesValidated lookup. -/
theorem can_use_snd (cs : CoinState) (s : PeerRequestCache) (f : Option Nat) :
    (can_use_peer_request_cache cs s f).2
      = { s with states_validated := (s.states_validated.get cs.get_hash).2 } := by
  simp only [can_use_peer_request_cache, PeerRequestCache.in_states_validated]
  split
  · rfl
  · split
    · rfl
    · split
      · rfl
      · split
        · rfl
        · split
          · rfl
          · rfl

/-- C7: calling clear_after_height twice consecutively at the same cutoff
yields the same state as calling it once, for every cache record and every
integer cutoff; in particular the key-to-value mapping of each of the seven
domain caches is unchanged by the second call. -/
theorem claimC7 (s : PeerRequestCache) (h : Int) :
    (s.clear_after_height h).clear_after_height h = s.clear_after_height h := by
  apply PeerRequestCache.ext
  · rw [PeerRequestCache.clear_blocks_def]
    exact LRUCache.foldl_refill_self _ _ (hstepLe h) _ (PeerRequestCache.clear_blocks_good s h)
  · rw [PeerRequestCache.clear_block_requests_def]
    exact LRUCache.foldl_refill_self _ _ (hstepPair h) _
      (PeerRequestCache.clear_block_requests_good s h)
  · rw [PeerRequestCache.clear_ses_requests_def]
    exact LRUCache.foldl_refill_self _ _ (hstepLe h) _
      (PeerRequestCache.clear_ses_requests_good s h)
  · rw [PeerRequestCache.clear_states_validated_def]
    exact LRUCache.foldl_refill_self _ _ (hstepState h) _
      (PeerRequestCache.clear_states_validated_good s h)
  · rw [PeerRequestCache.clear_timestamps_def]
    exact LRUCache.foldl_refill_self _ _ (hstepLe h) _
      (PeerRequestCache.clear_timestamps_good s h)
  · rw [PeerRequestCache.clear_blocks_validated_def]
    exact LRUCache.foldl_refill_self _ _ (hstepVal h) _
      (PeerRequestCache.clear_blocks_validated_good s h)
  · rw [PeerRequestCache.clear_block_signatures_validated_def]
    exact LRUCache.foldl_refill_self _ _ (hstepVal h) _
      (PeerRequestCache.clear_block_signatures_validated_good s h)

/-- C9: evaluating can_use_peer_request_cache leaves the key-to-value
contents of all seven domain caches unchanged, for every coin state, cache
record and optional fork height. -/
theorem claimC9 (cs : CoinState) (s : PeerRequestCache) (f : Option Nat) :
    (∀ k, ((can_use_peer_request_cache cs s f).2).blocks.getv k = s.blocks.getv k)
    ∧ (∀ k, ((can_use_peer_request_cache cs s f).2).block_requests.getv k
        = s.block_requests.getv k)
    ∧ (∀ k, ((can_use_peer_request_cache cs s f).2).ses_requests.getv k = s.ses_requests.getv k)
    ∧ (∀ k, ((can_use_peer_request_cache cs s f).2).states_validated.getv k
        = s.states_validated.getv k)
    ∧ (∀ k, ((can_use_peer_request_cache cs s f).2).timestamps.getv k = s.timestamps.getv k)
    ∧ (∀ k, ((can_use_peer_request_cache cs s f).2).blocks_validated.getv k
        = s.blocks_validated.getv k)
    ∧ (∀ k, ((can_use_peer_request_cache cs s f).2).block_signatures_validated.getv k
        = s.block_signatures_validated.getv k) := by
  rw [can_use_snd]
  exact ⟨fun k => rfl, fun k => rfl, fun k => rfl,
    fun k => LRUCache.getv_get_snd s.states_validated cs.get_hash k,
    fun k => rfl, fun k => rfl, fun k => rfl⟩

/-- Truncation preserves the capacity of every domain cache. -/
theorem clear_capacities (s : PeerRequestCache) (h : Int) :
    capacities (s.clear_after_height h) = capacities s := by
  simp only [capacities, Prod.mk.injEq]
  refine ⟨?_, ?_, ?_, ?_, ?_, ?_, ?_⟩
  · rw [PeerRequestCache.clear_blocks_def]
    exact LRUCache.foldl_capacity _ (fun acc p => by split <;> rfl) _ _
  · rw [PeerRequestCache.clear_block_requests_def]
    exact LRUCache.foldl_capacity _ (fun acc p => by split <;> rfl) _ _
  · rw [PeerRequestCache.clear_ses_requests_def]
    exact LRUCache.foldl_capacity _ (fun acc p => by split <;> rfl) _ _
  · rw [PeerRequestCache.clear_states_validated_def]
    exact LRUCache.foldl_capacity _ (fun acc p => by split <;> (try split) <;> rfl) _ _
  · rw [PeerRequestCache.clear_timestamps_def]
    exact LRUCache.foldl_capacity _ (fun acc p => by split <;> rfl) _ _
  · rw [PeerRequestCache.clear_blocks_validated_def]
    exact LRUCache.foldl_capacity _ (fun acc p => by split <;> rfl) _ _
  · rw [PeerRequestCache.clear_block_signatures_validated_def]
    exact LRUCache.foldl_capacity _ (fun acc p => by split <;> rfl) _ _

/-- A successful or failed add_to_blocks call preserves every capacity. -/
theorem add_to_blocks_capacities (s : PeerRequestCache) (b : HeaderBlock) :
    capacities ((s.add_to_blocks b).getD s) = capacities s := by
  simp only [PeerRequestCache.add_to_blocks]
  split
  · split
    · simp [capacities]
    · split
      · simp [capacities, LRUCache.put_capacity, LRUCache.get_snd_capacity]
      · simp [capacities, LRUCache.put_capacity, LRUCache.get_snd_capacity]
  · simp [capacities, LRUCache.put_capacity]

/-- Every interface call preserves every capacity. -/
theorem stepOp_capacities (s : PeerRequestCache) (op : Op) :
    capacities (stepOp s op) = capacities s := by
  cases op with
  | getBlock h =>
    simp [stepOp, PeerRequestCache.get_block, capacities, LRUCache.get_snd_capacity]
  | addToBlocks b => exact add_to_blocks_capacities s b
  | getBlockRequest a b =>
    simp [stepOp, PeerRequestCache.get_block_request, capacities, LRUCache.get_snd_capacity]
  | addToBlockRequests a b r =>
    simp [stepOp, PeerRequestCache.add_to_block_requests, capacities, LRUCache.put_capacity]
  | getSesRequest h =>
    simp [stepOp, PeerRequestCache.get_ses_request, capacities, LRUCache.get_snd_capacity]
  | addToSesRequests h v =>
    simp [stepOp, PeerRequestCache.add_to_ses_requests, capacities, LRUCache.put_capacity]
  | inStatesValidated h =>
    simp [stepOp, PeerRequestCache.in_states_validated, capacities, LRUCache.get_snd_capacity]
  | addToStatesValidated cs =>
    simp [stepOp, PeerRequestCache.add_to_states_validated, capacities, LRUCache.put_capacity]
  | getHeightTimestamp h =>
    simp [stepOp, PeerRequestCache.get_height_timestamp, capacities, LRUCache.get_snd_capacity]
  | addToBlocksValidated rch h =>
    simp [stepOp, PeerRequestCache.add_to_blocks_validated, capacities, LRUCache.put_capacity]
  | inBlocksValidated rch =>
    simp [stepOp, PeerRequestCache.in_blocks_validated, capacities, LRUCache.get_snd_capacity]
  | addToBlockSignaturesValidated b =>
    simp [stepOp, PeerRequestCache.add_to_block_signatures_validated, capacities,
      LRUCache.put_capacity]
  | inBlockSignaturesValidated b =>
    simp [stepOp, PeerRequestCache.in_block_signatures_validated, capacities,
      LRUCache.get_snd_capacity]
  | canUse cs f => rw [stepOp, can_use_snd]; simp [capacities, LRUCache.get_snd_capacity]
  | clearAfterHeight h => exact clear_capacities s h

/-- C10: clear_after_height rebuilds every domain cache at the capacity of
the cache it replaces, and along any sequence of interface calls from the
initial record the seven capacities stay at their construction values
100, 100, 100, 1000, 1000, 1000, 1000. -/
theorem claimC10 :
    (∀ (s : PeerRequestCache) (h : Int), capacities (s.clear_after_height h) = capacities s)
    ∧ ∀ ops : List Op,
        capacities (ops.foldl stepOp PeerRequestCache.init)
          = (100, 100, 100, 1000, 1000, 1000, 1000) := by
  refine ⟨clear_capacities, ?_⟩
  have hrun : ∀ (ops : List Op) (s : PeerRequestCache),
      capacities (ops.foldl stepOp s) = capacities s := by
    intro ops
    induction ops with
    | nil => intro s; rfl
    | cons op rest ih =>
      intro s
      rw [List.foldl_cons, ih, stepOp_capacities]
  intro ops
  rw [hrun ops PeerRequestCache.init]
  rfl

/-- C3 (amended): on a wellformed cache record, clear_after_height leaves in
each of the seven domain caches exactly those prior entries, with unchanged
values, satisfying its keep rule (Blocks, SesRequests, Timestamps by key
height; BlockRequests by both endpoints; StatesValidated by a stored height
that is not none; BlocksValidated and BlockSignaturesValidated by stored
height).  In particular a cutoff below every cached height yields empty
caches, and a cutoff at or above every cached height preserves all contents
except the StatesValidated entries whose stored height is none, which are
always dropped. -/
theorem claimC3_amended (s : PeerRequestCache) (h : Int) (hwf : s.WF) :
    clearFilterSpec s h
    ∧ (allAboveCutoff s h → allCleared (s.clear_after_height h))
    ∧ (allBelowCutoff s h → preservesExceptNoneStates s h) := by
  obtain ⟨e1, e2, e3, e4, e5, e6, e7⟩ := PeerRequestCache.clear_filter_spec_of_wf s h hwf
  refine ⟨⟨e1, e2, e3, e4, e5, e6, e7⟩, ?_, ?_⟩
  · rintro ⟨a1, a2, a3, a4, a5, a6, a7⟩
    refine ⟨?_, ?_, ?_, ?_, ?_, ?_, ?_⟩
    · rw [e1]
      refine List.filter_eq_nil_iff.mpr ?_
      intro p hp
      have ha := a1 p hp
      simp only [keepLe, decide_eq_true_eq]
      omega
    · rw [e2]
      refine List.filter_eq_nil_iff.mpr ?_
      intro p hp
      have ha := a2 p hp
      simp only [keepPair, decide_eq_true_eq]
      omega
    · rw [e3]
      refine List.filter_eq_nil_iff.mpr ?_
      intro p hp
      have ha := a3 p hp
      simp only [keepLe, decide_eq_true_eq]
      omega
    · rw [e4]
      refine List.filter_eq_nil_iff.mpr ?_
      intro p hp
      cases hp2 : p.2 with
      | none => simp [keepState, hp2]
      | some hv =>
        have ha := a4 p hp hv hp2
        simp only [keepState, hp2, decide_eq_true_eq]
        omega
    · rw [e5]
      refine List.filter_eq_nil_iff.mpr ?_
      intro p hp
      have ha := a5 p hp
      simp only [keepLe, decide_eq_true_eq]
      omega
    · rw [e6]
      refine List.filter_eq_nil_iff.mpr ?_
      intro p hp
      have ha := a6 p hp
      simp only [keepVal, decide_eq_true_eq]
      omega
    · rw [e7]
      refine List.filter_eq_nil_iff.mpr ?_
      intro p hp
      have ha := a7 p hp
      simp only [keepVal, decide_eq_true_eq]
      omega
  · rintro ⟨b1, b2, b3, b4, b5, b6, b7⟩
    refine ⟨?_, ?_, ?_, ?_, ?_, ?_, ?_⟩
    · rw [e1]
      refine List.filter_eq_self.mpr ?_
      intro p hp
      have hb := b1 p hp
      simp only [keepLe, decide_eq_true_eq]
      omega
    · rw [e2]
      refine List.filter_eq_self.mpr ?_
      intro p hp
      have hb := b2 p hp
      simp only [keepPair, decide_eq_true_eq]
      omega
    · rw [e3]
      refine List.filter_eq_self.mpr ?_
      intro p hp
      have hb := b3 p hp
      simp only [keepLe, decide_eq_true_eq]
      omega
    · rw [e4]
      refine List.filter_congr ?_
      intro p hp
      cases hp2 : p.2 with
      | none => simp [keepState, hp2]
      | some hv =>
        have hb := b4 p hp hv hp2
        simp [keepState, hp2, hb]
    · rw [e5]
      refine List.filter_eq_self.mpr ?_
      intro p hp
      have hb := b5 p hp
      simp only [keepLe, decide_eq_true_eq]
      omega
    · rw [e6]
      refine List.filter_eq_self.mpr ?_
      intro p hp
      have hb := b6 p hp
      simp only [keepVal, decide_eq_true_eq]
      omega
    · rw [e7]
      refine List.filter_eq_self.mpr ?_
      intro p hp
      have hb := b7 p hp
      simp only [keepVal, decide_eq_true_eq]
      omega

/-- C3 counterexample: in sC3 the cutoff 10 is at or above every cached
height, the only StatesValidated entry having stored height none, yet the
truncation does not preserve all contents: that entry is dropped. -/
theorem claimC3_counterexample :
    allBelowCutoff sC3 10
    ∧ (sC3.clear_after_height 10).states_validated.cache = []
    ∧ sC3.states_validated.cache = [([7], (none : Option Nat))] := by
  refine ⟨?_, rfl, rfl⟩
  unfold allBelowCutoff sC3
  refine ⟨?_, ?_, ?_, ?_, ?_, ?_, ?_⟩ <;> simp [PeerRequestCache.init, LRUCache.mk0]

/-- C3 witness: the amended truncation theorem instantiated on the populated
wellformed record sW3 at cutoff 8. -/
theorem claimC3_witness :
    sW3.WF
    ∧ (clearFilterSpec sW3 8
        ∧ (allAboveCutoff sW3 8 → allCleared (sW3.clear_after_height 8))
        ∧ (allBelowCutoff sW3 8 → preservesExceptNoneStates sW3 8)) :=
  ⟨by decide, claimC3_amended sW3 8 (by decide)⟩

/-- C1 (amended): can_use_peer_request_cache returns exactly per this
short-circuit sequence: false if the StatesValidated lookup of the coin
state hash yields no stored height (key absent, or stored value none); else
true if fork_height is absent; else false if both created_height and
spent_height are absent; else false if created_height is present and exceeds
fork_height; else false if spent_height is present and exceeds fork_height;
else true. -/
theorem claimC1_amended (cs : CoinState) (s : PeerRequestCache) (f : Option Nat) :
    (can_use_peer_request_cache cs s f).1 = claimC1Spec cs s f := by
  simp only [can_use_peer_request_cache, PeerRequestCache.in_states_validated, claimC1Spec,
    LRUCache.get_fst]
  cases hj : (s.states_validated.getv cs.get_hash).join with
  | none => simp
  | some hv =>
    cases f with
    | none => simp
    | some fh =>
      cases hc : cs.created_height with
      | none =>
        cases hsp : cs.spent_height with
        | none => simp
        | some v =>
          by_cases hcmp : fh < v <;> simp [hcmp, Option.any] <;> omega
      | some c =>
        cases hsp : cs.spent_height with
        | none =>
          by_cases hcmp : fh < c <;> simp [hcmp, Option.any] <;> omega
        | some v =>
          by_cases hcmp : fh < c
          · simp [hcmp, Option.any]
          · by_cases hcmp2 : fh < v <;> simp [hcmp, hcmp2, Option.any] <;> omega

/-- C1 counterexample: for the unconfirmed coin state cs00 the hash is
present in StatesValidated with stored value none and fork_height is absent,
so the claimed sequence returns true, but the code returns false. -/
theorem claimC1_counterexample :
    prc00.states_validated.getv cs00.get_hash = some none
    ∧ (can_use_peer_request_cache cs00 prc00 none).1 = false := ⟨rfl, rfl⟩

/-- C2 counterexample: cs00 has neither height; after add_to_states_validated
the call in_states_validated on its hash returns false, not true as
claimed. -/
theorem claimC2_counterexample :
    cs00.created_height = none ∧ cs00.spent_height = none
    ∧ (prc00.in_states_validated cs00.get_hash).1 = false := ⟨rfl, rfl, rfl⟩

/-- C2 (amended): for a coin state with neither a created_height nor a
spent_height, add_to_states_validated stores the key cs.get_hash with value
none — so the key is present in the underlying mapping — but
in_states_validated(cs.get_hash) returns false, because the lookup collapses
the stored none with absence of the key. -/
theorem claimC2_amended (s : PeerRequestCache) (cs : CoinState)
    (hc : cs.created_height = none) (hsp : cs.spent_height = none)
    (hcap : 0 < s.states_validated.capacity) :
    (s.add_to_states_validated cs).states_validated.getv cs.get_hash = some none
    ∧ ((s.add_to_states_validated cs).in_states_validated cs.get_hash).1 = false := by
  have hstore : (s.add_to_states_validated cs).states_validated.getv cs.get_hash = some none := by
    simp only [PeerRequestCache.add_to_states_validated, hc, hsp]
    exact LRUCache.getv_put_self _ _ _ hcap
  refine ⟨hstore, ?_⟩
  show ((s.add_to_states_validated cs).states_validated.get cs.get_hash).1.join.isSome = false
  rw [LRUCache.get_fst, hstore]
  rfl

/-- C2 witness: the amended statement instantiated at the initial record and
the unconfirmed coin state cs00. -/
theorem claimC2_witness :
    (cs00.created_height = none ∧ cs00.spent_height = none
      ∧ 0 < PeerRequestCache.init.states_validated.capacity)
    ∧ ((PeerRequestCache.init.add_to_states_validated cs00).states_validated.getv cs00.get_hash
          = some none
        ∧ ((PeerRequestCache.init.add_to_states_validated cs00).in_states_validated
            cs00.get_hash).1 = false) :=
  ⟨⟨rfl, rfl, by decide⟩, claimC2_amended PeerRequestCache.init cs00 rfl rfl (by decide)⟩

/-- C4: add_to_states_validated stores under the key cs.get_hash the resolved
height: spent_height if present, else created_height if present, else none;
Option.or prefers its first argument, so the right-hand side is exactly that
rule. -/
theorem claimC4 (s : PeerRequestCache) (cs : CoinState)
    (hcap : 0 < s.states_validated.capacity) :
    (s.add_to_states_validated cs).states_validated.getv cs.get_hash
      = some (cs.spent_height.or cs.created_height) := by
  have hres : (match cs.spent_height with
      | some h => some h
      | none => match cs.created_height with | some h => some h | none => none)
      = cs.spent_height.or cs.created_height := by
    cases cs.spent_height <;> cases cs.created_height <;> rfl
  simp only [PeerRequestCache.add_to_states_validated]
  rw [hres]
  exact LRUCache.getv_put_self _ _ _ hcap

/-- C4 witness: the stored value for a coin state with both heights is its
spent height. -/
theorem claimC4_witness :
    0 < PeerRequestCache.init.states_validated.capacity
    ∧ (PeerRequestCache.init.add_to_states_validated csW4).states_validated.getv csW4.get_hash
        = some (csW4.spent_height.or csW4.created_height) :=
  ⟨by decide, claimC4 PeerRequestCache.init csW4 (by decide)⟩

/-- C5: two header blocks agreeing on the plot public key bytes, the foliage
block data bytes and the foliage block data signature bytes have equal
signature fingerprints, whatever their heights, and a signature validation
recorded for the first is found for the second. -/
theorem claimC5 (s : PeerRequestCache) (b1 b2 : HeaderBlock)
    (hpk : b1.plot_public_key = b2.plot_public_key)
    (hfd : b1.foliage_block_data = b2.foliage_block_data)
    (hfs : b1.foliage_block_data_signature = b2.foliage_block_data_signature)
    (hcap : 0 < s.block_signatures_validated.capacity) :
    PeerRequestCache.calculate_sig_hash_from_block b1
        = PeerRequestCache.calculate_sig_hash_from_block b2
    ∧ ((s.add_to_block_signatures_validated b1).in_block_signatures_validated b2).1 = true := by
  have hsig : PeerRequestCache.calculate_sig_hash_from_block b1
      = PeerRequestCache.calculate_sig_hash_from_block b2 := by
    unfold PeerRequestCache.calculate_sig_hash_from_block
    rw [hpk, hfd, hfs]
  refine ⟨hsig, ?_⟩
  show ((s.add_to_block_signatures_validated b1).block_signatures_validated.get
      (PeerRequestCache.calculate_sig_hash_from_block b2)).1.isSome = true
  rw [LRUCache.get_fst, ← hsig]
  have hadd : (s.add_to_block_signatures_validated b1).block_signatures_validated
      = s.block_signatures_validated.put (PeerRequestCache.calculate_sig_hash_from_block b1)
          b1.height := rfl
  rw [hadd, LRUCache.getv_put_self _ _ _ hcap]
  rfl

/-- C5 witness: bT1 and bSig2 share the three source fields but sit at
heights 7 and 42; the fingerprints agree and the dedup lookup succeeds. -/
theorem claimC5_witness :
    (bT1.plot_public_key = bSig2.plot_public_key
      ∧ bT1.foliage_block_data = bSig2.foliage_block_data
      ∧ bT1.foliage_block_data_signature = bSig2.foliage_block_data_signature
      ∧ 0 < PeerRequestCache.init.block_signatures_validated.capacity)
    ∧ (PeerRequestCache.calculate_sig_hash_from_block bT1
          = PeerRequestCache.calculate_sig_hash_from_block bSig2
        ∧ ((PeerRequestCache.init.add_to_block_signatures_validated
              bT1).in_block_signatures_validated bSig2).1 = true) :=
  ⟨⟨rfl, rfl, rfl, by decide⟩, claimC5 PeerRequestCache.init bT1 bSig2 rfl rfl rfl (by decide)⟩

/-- An add of a transaction block whose height already has a timestamp only
refreshes the recency of that timestamp entry. -/
theorem add_to_blocks_hit (s : PeerRequestCache) (b : HeaderBlock)
    (ftb : FoliageTransactionBlock) (t : Nat)
    (htx : b.is_transaction_block = true) (hf : b.foliage_transaction_block = some ftb)
    (hgetv : s.timestamps.getv b.height = some t) :
    s.add_to_blocks b
      = some { s with
          blocks := s.blocks.put b.height b
          timestamps := (s.timestamps.get b.height).2 } := by
  have hr1 : (s.timestamps.get b.height).1 = some t := by
    rw [LRUCache.get_fst]; exact hgetv
  simp only [PeerRequestCache.add_to_blocks, htx, hf, if_true, hr1]

/-- C6: a timestamp is recorded only for a transaction block at a height
carrying no timestamp yet: a non transaction block leaves the Timestamps
cache untouched, an already recorded timestamp is never overwritten, and two
transaction blocks added at the same height with different timestamps leave
get_height_timestamp returning the first timestamp. -/
theorem claimC6 :
    (∀ (s : PeerRequestCache) (b : HeaderBlock), b.is_transaction_block = false →
      ∃ s2, s.add_to_blocks b = some s2 ∧ s2.timestamps = s.timestamps)
    ∧ (∀ (s : PeerRequestCache) (b : HeaderBlock) (ftb : FoliageTransactionBlock) (t : Nat),
        b.is_transaction_block = true → b.foliage_transaction_block = some ftb →
        s.timestamps.getv b.height = some t →
        ∃ s2, s.add_to_blocks b = some s2
          ∧ ∀ k, s2.timestamps.getv k = s.timestamps.getv k)
    ∧ (∀ (s : PeerRequestCache) (b1 b2 : HeaderBlock) (f1 f2 : FoliageTransactionBlock),
        b1.is_transaction_block = true → b2.is_transaction_block = true →
        b1.foliage_transaction_block = some f1 → b2.foliage_transaction_block = some f2 →
        b2.height = b1.height → s.timestamps.getv b1.height = none →
        0 < s.timestamps.capacity →
        ∃ s1 s2, s.add_to_blocks b1 = some s1 ∧ s1.add_to_blocks b2 = some s2
          ∧ (s2.get_height_timestamp b1.height).1 = some f1.timestamp) := by
  refine ⟨?_, ?_, ?_⟩
  · intro s b hb
    refine ⟨{ s with blocks := s.blocks.put b.height b }, ?_, rfl⟩
    simp [PeerRequestCache.add_to_blocks, hb]
  · intro s b ftb t htx hf hgetv
    exact ⟨_, add_to_blocks_hit s b ftb t htx hf hgetv,
      fun k => LRUCache.getv_get_snd s.timestamps b.height k⟩
  · intro s b1 b2 f1 f2 htx1 htx2 hf1 hf2 hh hmiss hcap
    have hget1 := LRUCache.get_miss s.timestamps b1.height hmiss
    have hadd1 : s.add_to_blocks b1
        = some { s with
            blocks := s.blocks.put b1.height b1
            timestamps := s.timestamps.put b1.height f1.timestamp } := by
      simp only [PeerRequestCache.add_to_blocks, htx1, hf1, if_true, hget1]
    have hgetv1 : ({ s with
        blocks := s.blocks.put b1.height b1
        timestamps := s.timestamps.put b1.height f1.timestamp }
          : PeerRequestCache).timestamps.getv b1.height = some f1.timestamp := by
      show (s.timestamps.put b1.height f1.timestamp).getv b1.height = some f1.timestamp
      exact LRUCache.getv_put_self _ _ _ hcap
    have hgetv2 : ({ s with
        blocks := s.blocks.put b1.height b1
        timestamps := s.timestamps.put b1.height f1.timestamp }
          : PeerRequestCache).timestamps.getv b2.height = some f1.timestamp := by
      rw [hh]; exact hgetv1
    have hadd2 := add_to_blocks_hit _ b2 f2 f1.timestamp htx2 hf2 hgetv2
    refine ⟨_, _, hadd1, hadd2, ?_⟩
    show ((({ s with
        blocks := s.blocks.put b1.height b1
        timestamps := s.timestamps.put b1.height f1.timestamp }
          : PeerRequestCache).timestamps.get b2.height).2.get b1.height).1 = some f1.timestamp
    rw [LRUCache.get_fst, LRUCache.getv_get_snd]
    exact hgetv1

/-- C6 witness: adding the non transaction block bN leaves Timestamps
untouched, and adding bT1 then bT2 at height 7 leaves timestamp 100
recorded. -/
theorem claimC6_witness :
    (∃ s2, PeerRequestCache.init.add_to_blocks bN = some s2
      ∧ s2.timestamps = PeerRequestCache.init.timestamps)
    ∧ (bT1.is_transaction_block = true ∧ bT2.is_transaction_block = true
        ∧ bT1.foliage_transaction_block = some { timestamp := 100 }
        ∧ bT2.foliage_transaction_block = some { timestamp := 200 }
        ∧ bT2.height = bT1.height
        ∧ PeerRequestCache.init.timestamps.getv bT1.height = none
        ∧ 0 < PeerRequestCache.init.timestamps.capacity)
    ∧ ∃ s1 s2, PeerRequestCache.init.add_to_blocks bT1 = some s1
        ∧ s1.add_to_blocks bT2 = some s2
        ∧ (s2.get_height_timestamp bT1.height).1 = some 100 := by
  refine ⟨claimC6.1 PeerRequestCache.init bN rfl, ⟨rfl, rfl, rfl, rfl, rfl, rfl, by decide⟩, ?_⟩
  exact claimC6.2.2 PeerRequestCache.init bT1 bT2 { timestamp := 100 } { timestamp := 200 }
    rfl rfl rfl rfl rfl rfl (by decide)

/-- C8: add_to_blocks asserts on a block flagged as a transaction block whose
foliage transaction block record is absent (the failed assertion is the
result none, so no partial timestamp is recorded), and under the precondition
that every transaction block carries its record the assertion branch is
unreachable: the call succeeds. -/
theorem claimC8 (s : PeerRequestCache) (b : HeaderBlock) :
    (b.is_transaction_block = true → b.foliage_transaction_block = none →
      s.add_to_blocks b = none)
    ∧ ((b.is_transaction_block = true → b.foliage_transaction_block ≠ none) →
      (s.add_to_blocks b).isSome = true) := by
  constructor
  · intro htx hf
    simp [PeerRequestCache.add_to_blocks, htx, hf]
  · intro hgood
    simp only [PeerRequestCache.add_to_blocks]
    by_cases htx : b.is_transaction_block = true
    · cases hf : b.foliage_transaction_block with
      | none => exact absurd hf (hgood htx)
      | some ftb =>
        simp only [htx, if_true, hf]
        split <;> rfl
    · simp [htx]

/-- C8 witness: the malformed block bBad is rejected while the wellformed
transaction block bT1 is accepted. -/
theorem claimC8_witness :
    PeerRequestCache.init.add_to_blocks bBad = none
    ∧ (PeerRequestCache.init.add_to_blocks bT1).isSome = true :=
  ⟨(claimC8 PeerRequestCache.init bBad).1 rfl rfl,
    (claimC8 PeerRequestCache.init bT1).2 (fun _ => by decide)⟩
